import Mathlib

/-!
A shallow embedding of the arclimb correspondence-graph store and feature
matching engine (`arclimb/core/graph/graph.py`,
`arclimb/core/correspondence/correspondence.py`,
`arclimb/core/correspondence/pointmap.py`), together with proofs of the
specified properties.

Conventions of the embedding:
* Python floats are modelled as `ℚ` (the graph store performs no arithmetic
  on coordinates, and the matcher compares exact arithmetic expressions);
  comparisons of Euclidean norms are expressed by comparing squares, which
  is equivalent over nonnegative reals.
* Python `set` objects are modelled as duplicate-free lists; insertion is
  `pyInsert`, conversion of an iterable is `pySet`.
* The `networkx.Graph` backing store is modelled explicitly: a node store
  mapping a node id to an optional `Node` attribute (absent when networkx
  auto-created the node as an edge endpoint), and an edge store mapping an
  unordered pair of ids to the `correspondences` attribute.
* Fallible operations return `Except PyError _`, where `PyError` covers the
  exceptions the code can actually raise (the repository defines no
  exception classes of its own).
* External capabilities (OpenCV, scipy) are parameters of the embedded
  functions: homography estimation is an oracle returning an optional
  point transform, descriptor distance and the Euclidean metric used by
  `cv2.norm` / the KD-tree are oracle functions.
-/

/-- Exceptions the embedded code can raise.  The repository itself defines no
exception classes; these are the exceptions of Python and of the external
libraries. -/
inductive PyError where
  /-- Python `KeyError` (e.g. `set.remove` on a missing element, missing dict key). -/
  | keyError
  /-- Python `TypeError` (e.g. calling a function with missing required arguments). -/
  | typeError
  /-- Exception `networkx.NetworkXError` (e.g. removing a non-existent edge). -/
  | networkxError
  /-- Exception `cv2.error`, the generic OpenCV exception. -/
  | cv2Error
deriving DecidableEq, Repr

/-- Alias `NodeId = NewType('NodeId', str)` from `graph.py`. -/
abbrev NodeId := String

/-- Class `Point`: immutable point with two coordinates (`graph.py`).  Python floats
are modelled as `ℚ`. -/
structure Point where
  x : ℚ
  y : ℚ
deriving DecidableEq, Repr

/-- Class `Correspondence(point1, point2)` from `graph.py`: an ordered pair of
points with structural equality. -/
structure Correspondence where
  point1 : Point
  point2 : Point
deriving DecidableEq, Repr

/-- Class `Node(id, attributes)` from `graph.py`.  The `attributes` dict is
string-keyed with opaque values that the graph code only passes through;
values are modelled as strings. -/
structure Node where
  id : NodeId
  attributes : List (String × String) := []
deriving DecidableEq, Repr

/-- Python `set.add`: insert an element unless already present. -/
def pyInsert {α : Type} [DecidableEq α] (s : List α) (a : α) : List α :=
  if a ∈ s then s else s ++ [a]

/-- Python `set(iterable)`: collect the elements, dropping duplicates. -/
def pySet {α : Type} [DecidableEq α] (l : List α) : List α :=
  l.foldl pyInsert []

/-- Unordered-pair equality on node id pairs, as used by the undirected
`networkx` edge lookup. -/
def PairUn (u v x y : NodeId) : Prop :=
  (u = x ∧ v = y) ∨ (u = y ∧ v = x)

instance (u v x y : NodeId) : Decidable (PairUn u v x y) := by
  unfold PairUn; infer_instance

/-- An edge record of the backing `networkx` store: the two endpoints in
stored orientation and the `correspondences` attribute (a Python set). -/
abbrev EdgeEntry := NodeId × NodeId × List Correspondence

/-- Look up the `correspondences` attribute of the edge joining `x` and `y`
(undirected lookup), as `self.__graph[x][y]['correspondences']`. -/
def findEdge : List EdgeEntry → NodeId → NodeId → Option (List Correspondence)
  | [], _, _ => none
  | (u, v, cs) :: rest, x, y =>
      if PairUn u v x y then some cs else findEdge rest x y

/-- Replace the `correspondences` attribute of the edge joining `a` and `b`
by `f` of its current value (first matching entry). -/
def updateEdge (es : List EdgeEntry) (a b : NodeId)
    (f : List Correspondence → List Correspondence) : List EdgeEntry :=
  match es with
  | [] => []
  | (u, v, cs) :: rest =>
      if PairUn u v a b then (u, v, f cs) :: rest
      else (u, v, cs) :: updateEdge rest a b f

/-- Delete the edge joining `a` and `b` from the edge store
(first matching entry), as `networkx.Graph.remove_edge`. -/
def deleteEdge (es : List EdgeEntry) (a b : NodeId) : List EdgeEntry :=
  match es with
  | [] => []
  | (u, v, cs) :: rest =>
      if PairUn u v a b then rest
      else (u, v, cs) :: deleteEdge rest a b

/-- The node store of the backing `networkx` graph: each node id maps to an
optional `node` attribute (`none` when networkx auto-created the node as an
endpoint of an added edge, without attributes). -/
abbrev NodeStore := List (NodeId × Option Node)

/-- Method `networkx.Graph.add_node(k, node=v)`: insert the node or overwrite its
attributes. -/
def nwAddNode (ns : NodeStore) (k : NodeId) (v : Option Node) : NodeStore :=
  match ns with
  | [] => [(k, v)]
  | (k', v') :: rest =>
      if k' = k then (k, v) :: rest else (k', v') :: nwAddNode rest k v

/-- The implicit node insertion performed by `networkx.Graph.add_edge` for an
endpoint that is not yet a node: the node is created with no attributes. -/
def nwEnsureNode (ns : NodeStore) (k : NodeId) : NodeStore :=
  if k ∈ ns.map Prod.fst then ns else ns ++ [(k, none)]

/-- The `Graph` class of `graph.py`: a wrapper around an undirected
`networkx.Graph` whose nodes carry a `node` attribute and whose edges carry
a `correspondences` attribute. -/
structure Graph where
  nodes : NodeStore
  edges : List EdgeEntry
deriving DecidableEq, Repr

namespace Graph

/-- Constructor `Graph()`. -/
def empty : Graph := ⟨[], []⟩

/-- Method `Graph.add_node(node)`: `self.__graph.add_node(node.id, node=node)`. -/
def add_node (g : Graph) (node : Node) : Graph :=
  { g with nodes := nwAddNode g.nodes node.id (some node) }

/-- Method `Graph.has_node(node_id)`. -/
def has_node (g : Graph) (node_id : NodeId) : Bool :=
  node_id ∈ g.nodes.map Prod.fst

/-- Method `Graph.has_edge(node1_id, node2_id)`. -/
def has_edge (g : Graph) (node1_id node2_id : NodeId) : Bool :=
  (findEdge g.edges node1_id node2_id).isSome

/-- Method `Graph.add_edge(node1_id, node2_id)`: if the edge is absent, add it with
an empty correspondence set.  `networkx.Graph.add_edge` implicitly inserts
any endpoint that is not yet a node (with no attributes). -/
def add_edge (g : Graph) (node1_id node2_id : NodeId) : Graph :=
  if g.has_edge node1_id node2_id then g
  else
    { nodes := nwEnsureNode (nwEnsureNode g.nodes node1_id) node2_id,
      edges := g.edges ++ [(node1_id, node2_id, [])] }

/-- Method `Graph.remove_edge(node1_id, node2_id)`: `networkx` raises
`NetworkXError` when the edge is absent. -/
def remove_edge (g : Graph) (node1_id node2_id : NodeId) : Except PyError Graph :=
  if g.has_edge node1_id node2_id then
    .ok { g with edges := deleteEdge g.edges node1_id node2_id }
  else .error .networkxError

/-- Method `Graph.set_correspondences(node1_id, node2_id, correspondences)`:
ensure the edge exists, then assign `set(correspondences)` to its
`correspondences` attribute. -/
def set_correspondences (g : Graph) (node1_id node2_id : NodeId)
    (correspondences : List Correspondence) : Graph :=
  let g' := g.add_edge node1_id node2_id
  { g' with edges := updateEdge g'.edges node1_id node2_id (fun _ => pySet correspondences) }

/-- Method `Graph.remove_correspondences(node1_id, node2_id)`: the body is
`self.set_correspondences(set())`, which passes a single positional argument
to a method requiring three; Python raises `TypeError` at the call, before
any mutation takes place. -/
def remove_correspondences (_g : Graph) (_node1_id _node2_id : NodeId) :
    Except PyError Graph :=
  .error .typeError

/-- Method `Graph.add_correspondence(node1_id, node2_id, correspondence)`: ensure
the edge exists, then `add` the correspondence to its set. -/
def add_correspondence (g : Graph) (node1_id node2_id : NodeId)
    (correspondence : Correspondence) : Graph :=
  let g' := g.add_edge node1_id node2_id
  { g' with edges := updateEdge g'.edges node1_id node2_id (fun cs => pyInsert cs correspondence) }

/-- Method `Graph.remove_correspondence(node1_id, node2_id, correspondence)`:
guarded by `has_edge`; `set.remove` raises `KeyError` when the element is
absent; afterwards the source re-tests `has_edge` and removes the edge when
that test fails (an edge entry is still present at that point, so the
re-test never fails and the edge is never removed). -/
def remove_correspondence (g : Graph) (node1_id node2_id : NodeId)
    (correspondence : Correspondence) : Except PyError Graph :=
  match findEdge g.edges node1_id node2_id with
  | none => .ok g
  | some cs =>
      if correspondence ∈ cs then
        let g' : Graph :=
          { g with edges := updateEdge g.edges node1_id node2_id (fun cs => cs.erase correspondence) }
        if g'.has_edge node1_id node2_id then .ok g'
        else g'.remove_edge node1_id node2_id
      else .error .keyError

/-- The list comprehension inside `get_nodes`: extract the `node` attribute
of every node, left to right; a missing attribute raises `KeyError`. -/
def getNodesAux : NodeStore → Except PyError (List Node)
  | [] => .ok []
  | (_, some n) :: rest => (getNodesAux rest).map (fun l => n :: l)
  | (_, none) :: _ => .error .keyError

/-- Method `Graph.get_nodes()`: collect the `node` attribute of every node into a
Python set; a node auto-created by `add_edge` has no such attribute and the
lookup raises `KeyError`. -/
def get_nodes (g : Graph) : Except PyError (List Node) :=
  (getNodesAux g.nodes).map pySet

/-- Method `Graph.get_correspondences(node1_id, node2_id)`: the edge's set, or the
empty set when the edge is absent. -/
def get_correspondences (g : Graph) (node1_id node2_id : NodeId) : List Correspondence :=
  (findEdge g.edges node1_id node2_id).getD []

end Graph

/-- One entry of `to_dict()['edges']`.  `Correspondence.to_dict`/`from_dict`
reconstruct an equal correspondence from its `{point1: {x,y}, point2: {x,y}}`
dictionary, so correspondences are kept as values here. -/
structure EdgeDict where
  src : NodeId
  dest : NodeId
  correspondences : List Correspondence
deriving DecidableEq, Repr

/-- The dictionary produced by `Graph.to_dict`.  `Node.to_dict` emits
`{id, attributes}` and `Node(**d)` reconstructs an equal node, so nodes are
kept as values here. -/
structure GraphDict where
  nodes : List Node
  edges : List EdgeDict
deriving DecidableEq, Repr

namespace Graph

/-- Method `Graph.to_dict()`. -/
def to_dict (g : Graph) : Except PyError GraphDict := do
  let ns ← g.get_nodes
  return ⟨ns, g.edges.map (fun e => ⟨e.1, e.2.1, e.2.2⟩)⟩

/-- Method `Graph.from_dict(graph_dict)`: add every node, then add every serialized
correspondence of every edge entry. -/
def from_dict (d : GraphDict) : Graph :=
  let g := d.nodes.foldl add_node empty
  d.edges.foldl
    (fun g e => e.correspondences.foldl
      (fun g c => g.add_correspondence e.src e.dest c) g) g

end Graph

/-- A `cv2.DMatch`: query keypoint index, train keypoint index, descriptor
distance. -/
structure DMatch where
  queryIdx : Nat
  trainIdx : Nat
  distance : ℚ
deriving DecidableEq, Repr

/-- The triple returned by `Matcher.match`: the matches and the two keypoint
lists (pixel-space positions; descriptors are index-aligned and enter via a
distance oracle). -/
structure MatchResult where
  dmatches : List DMatch
  kp1 : List Point
  kp2 : List Point
deriving DecidableEq, Repr

/-- The `(src_pts, dst_pts)` pairs fed to `cv2.findHomography`:
`kp1[m.queryIdx].pt, kp2[m.trainIdx].pt` for every match. -/
def MatchResult.srcDst (r : MatchResult) : List (Point × Point) :=
  r.dmatches.map (fun m => (r.kp1.getD m.queryIdx ⟨0, 0⟩, r.kp2.getD m.trainIdx ⟨0, 0⟩))

/-- Comparison `‖(dx, dy)‖ < t` (`np.linalg.norm(...) < t`), expressed over `ℚ` by
comparing squares: the Euclidean norm is below `t` iff `t` is positive and
`dx² + dy² < t²`. -/
def normLt (dx dy t : ℚ) : Bool :=
  decide (0 < t) && decide (dx ^ 2 + dy ^ 2 < t ^ 2)

namespace HomographyFilter

/-- Constant `HomographyFilter.MIN_MATCH_COUNT`. -/
def MIN_MATCH_COUNT : Nat := 10

/-- The per-match test of the filtering loop in `HomographyFilter.match`:
project the query point through `H`, normalize the residual per axis by
image 2's `(width, height)`, keep the match iff the residual's Euclidean
norm is below the threshold. -/
def keepMatch (threshold : ℚ) (kp1 kp2 : List Point) (H : Point → Point)
    (h2 w2 : ℚ) (m : DMatch) : Bool :=
  let src_pt := kp1.getD m.queryIdx ⟨0, 0⟩
  let dst_pt := kp2.getD m.trainIdx ⟨0, 0⟩
  let t := H src_pt
  normLt ((dst_pt.x - t.x) / w2) ((dst_pt.y - t.y) / h2) threshold

/-- Method `HomographyFilter.match(image1, image2)` (named `matchOp` because
`match` is a Lean keyword), applied to the result of the inner matcher.
`findHomography` is the external `cv2.findHomography(src, dst, cv2.LMEDS)`
capability, returning the fitted transform or `none`; with `none` the
subsequent `cv2.perspectiveTransform` raises.  `h2, w2` are
`image2.shape[:2]`. -/
def matchOp (threshold : ℚ) (inner : MatchResult)
    (findHomography : List (Point × Point) → Option (Point → Point))
    (h2 w2 : ℚ) : Except PyError MatchResult :=
  if MIN_MATCH_COUNT ≤ inner.dmatches.length then
    match findHomography inner.srcDst with
    | none => .error .cv2Error
    | some H =>
        let res := inner.dmatches.filter (keepMatch threshold inner.kp1 inner.kp2 H h2 w2)
        .ok ⟨res, inner.kp1, inner.kp2⟩
  else .ok inner

end HomographyFilter

/-- One step of the best/second-best scan over the candidate indices
(`for pt2_idx in points2_idxs: ...` in `DoubleORBMatcher.match`); the state
is `(best, second_best)` as optional `(index, distance)` pairs, `none`
standing for `(None, inf)`. -/
def bestTwoStep (dist : Nat → ℚ) (s : Option (Nat × ℚ) × Option (Nat × ℚ))
    (j : Nat) : Option (Nat × ℚ) × Option (Nat × ℚ) :=
  let d := dist j
  match s with
  | (none, _) => (some (j, d), none)
  | (some (bi, bd), sb) =>
      if d < bd then (some (j, d), some (bi, bd))
      else
        match sb with
        | none => (some (bi, bd), some (j, d))
        | some (si, sd) =>
            if d < sd then (some (bi, bd), some (j, d))
            else (some (bi, bd), some (si, sd))

/-- Scan all candidate indices for the best and second-best descriptor
distance. -/
def bestTwo (dist : Nat → ℚ) (idxs : List Nat) :
    Option (Nat × ℚ) × Option (Nat × ℚ) :=
  idxs.foldl (bestTwoStep dist) (none, none)

/-- Stable insertion into a list sorted ascending by `distance`: the model of
Python's stable `sorted(dmatches, key=lambda x: x.distance)`. -/
def insSorted (m : DMatch) : List DMatch → List DMatch
  | [] => [m]
  | x :: xs => if m.distance < x.distance then m :: x :: xs else x :: insSorted m xs

/-- Stable sort ascending by `distance`. -/
def pySorted (l : List DMatch) : List DMatch :=
  l.foldl (fun acc m => insSorted m acc) []

/-- One step of the greedy spatial non-maximum suppression at the end of
`DoubleORBMatcher.match`: the accumulator is
`(final_matches, chosen_keypoints)`; a candidate is kept iff its image-1
keypoint is farther than `thr` from every chosen keypoint (the minimum over
an empty list is `inf`, which exceeds `thr`). -/
def nmsStep (eNorm : Point → Point → ℚ) (kp1 : List Point) (thr : ℚ)
    (acc : List DMatch × List Point) (m : DMatch) : List DMatch × List Point :=
  let candidate_pt := kp1.getD m.queryIdx ⟨0, 0⟩
  if acc.2.all (fun p => decide (thr < eNorm candidate_pt p)) then
    (acc.1 ++ [m], acc.2 ++ [candidate_pt])
  else acc

namespace DoubleORBMatcher

/-- Method `DoubleORBMatcher.match(image1, image2)` (named `matchOp` because `match`
is a Lean keyword).  External capabilities are parameters:
* `initial` is the result of `self._fastORBMatcher.match(image1, image2)`;
* `findHomography` is `cv2.findHomography(..., cv2.RANSAC, 5.0)`; OpenCV
  raises `cv2.error` when given fewer than 4 point pairs, and with a `None`
  result the subsequent `cv2.perspectiveTransform` raises;
* `kp1, kp2` are the dense keypoints of the second detection pass
  (descriptors enter only through the `hamming` distance oracle, indexed
  like the keypoints);
* `eNorm` is the Euclidean pixel-space metric used both by the KD-tree
  radius query (`query_ball_point` keeps points within distance `disp`) and
  by `cv2.norm` in the suppression loop;
* `h1, w1` and `h2, w2` are `image1.shape[:2]` and `image2.shape[:2]`. -/
def matchOp (max_displacement min_kp_distance : ℚ) (initial : MatchResult)
    (findHomography : List (Point × Point) → Option (Point → Point))
    (kp1 kp2 : List Point) (hamming : Nat → Nat → ℚ)
    (eNorm : Point → Point → ℚ) (h1 w1 h2 w2 : ℚ) :
    Except PyError MatchResult :=
  if initial.dmatches.length < 4 then .error .cv2Error
  else
    match findHomography initial.srcDst with
    | none => .error .cv2Error
    | some H =>
        let pts1_transformed := kp1.map H
        let disp := max_displacement * min h2 w2
        let dmatches := (List.range kp1.length).filterMap (fun i =>
          let pt1t := pts1_transformed.getD i ⟨0, 0⟩
          let cands := (List.range kp2.length).filter
            (fun j => decide (eNorm pt1t (kp2.getD j ⟨0, 0⟩) ≤ disp))
          match bestTwo (fun j => hamming i j) cands with
          | (some (bi, bd), sb) =>
              match sb with
              | none => some ⟨i, bi, bd⟩
              | some (_, sd) => if bd < 0.75 * sd then some ⟨i, bi, bd⟩ else none
          | (none, _) => none)
        let final := (pySorted dmatches).foldl
          (nmsStep eNorm kp1 (min_kp_distance * min h1 w1)) ([], [])
        .ok ⟨final.1, kp1, kp2⟩

end DoubleORBMatcher

/-- The state of a constructed `HomographicPointMap`: the matrix returned by
`cv2.findHomography`, which can be `None` (Python assigns it to `self._M`
without checking). -/
structure HomographicPointMap where
  M : Option (Point → Point)

/-- Constructor `HomographicPointMap.__init__(correspondences)`: build the source/target
point arrays and call `cv2.findHomography(..., cv2.RANSAC, 5.0)`.  OpenCV
raises `cv2.error` when given fewer than 4 point pairs; otherwise whatever
the estimator returns (possibly `None`) is stored unchecked. -/
def HomographicPointMap.init
    (findHomography : List (Point × Point) → Option (Point → Point))
    (correspondences : List Correspondence) : Except PyError HomographicPointMap :=
  if correspondences.length < 4 then .error .cv2Error
  else .ok ⟨findHomography (correspondences.map (fun c => (c.point1, c.point2)))⟩

/-- Method `HomographicPointMap.map(point)`: apply the stored transform; with
`self._M = None`, `cv2.perspectiveTransform` raises. -/
def HomographicPointMap.mapPoint (pm : HomographicPointMap) (point : Point) :
    Except PyError (Point × Option ℚ) :=
  match pm.M with
  | some H => .ok (H point, none)
  | none => .error .cv2Error

/-- Well-formedness of a `Graph` state as established by building it through
the store's own operations with every edge endpoint added as a node first
(the hypothesis of the round-trip law): the node store holds exactly a list
of nodes keyed by their own ids, with no duplicate ids; every edge endpoint
is among those ids; and no two edge entries join the same unordered pair. -/
def Graph.WF (g : Graph) : Prop :=
  ∃ l : List Node,
    g.nodes = l.map (fun n => (n.id, some n)) ∧
    (l.map Node.id).Nodup ∧
    (∀ e ∈ g.edges, e.1 ∈ l.map Node.id ∧ e.2.1 ∈ l.map Node.id) ∧
    g.edges.Pairwise (fun e e' => ¬ PairUn e.1 e.2.1 e'.1 e'.2.1)

/-- Two serialized edges describe the same edge up to the ordering of the
correspondence list. -/
def EdgeDictPerm (e e' : EdgeDict) : Prop :=
  e.src = e'.src ∧ e.dest = e'.dest ∧ e.correspondences.Perm e'.correspondences

/-- Relation stating that `d'` is a reordering of the serialized graph `d`: the node list is
permuted, and the edge list is permuted with each edge's correspondence
list permuted as well. -/
def GraphDict.PermOf (d d' : GraphDict) : Prop :=
  d.nodes.Perm d'.nodes ∧
  ∃ mid, d.edges.Perm mid ∧ List.Forall₂ EdgeDictPerm mid d'.edges

/-! Concrete fixtures used to instantiate theorems with hypotheses. -/

/-- A sample correspondence. -/
def corr0 : Correspondence := ⟨⟨1, 2⟩, ⟨2, 3⟩⟩

/-- A second sample correspondence. -/
def corr1 : Correspondence := ⟨⟨1, 6⟩, ⟨3, 3⟩⟩

/-- Node `"a"`. -/
def nodeA : Node := ⟨"a", []⟩

/-- Node `"b"`. -/
def nodeB : Node := ⟨"b", []⟩

/-- A graph holding nodes `"a"` and `"b"` and no edge. -/
def graphAB : Graph := (Graph.empty.add_node nodeA).add_node nodeB

/-- Graph `graphAB` with the single correspondence `corr0` between `"a"` and
`"b"`. -/
def graphAB1 : Graph := graphAB.add_correspondence "a" "b" corr0

/-! ## Lemmas about the Python-set model -/

theorem mem_pyInsert {α : Type} [DecidableEq α] {s : List α} {a b : α} :
    a ∈ pyInsert s b ↔ a ∈ s ∨ a = b := by
  unfold pyInsert
  by_cases h : b ∈ s
  · rw [if_pos h]
    constructor
    · exact Or.inl
    · rintro (h' | rfl) <;> [exact h'; exact h]
  · rw [if_neg h]
    simp

theorem mem_foldl_pyInsert {α : Type} [DecidableEq α] (l : List α) :
    ∀ (acc : List α) (a : α), a ∈ l.foldl pyInsert acc ↔ a ∈ acc ∨ a ∈ l := by
  induction l with
  | nil => intro acc a; simp
  | cons x xs ih =>
      intro acc a
      simp only [List.foldl_cons]
      rw [ih, mem_pyInsert, List.mem_cons]
      tauto

theorem mem_pySet {α : Type} [DecidableEq α] {l : List α} {a : α} :
    a ∈ pySet l ↔ a ∈ l := by
  unfold pySet
  rw [mem_foldl_pyInsert]
  simp

theorem foldl_pyInsert_of_nodup {α : Type} [DecidableEq α] (l : List α) :
    ∀ acc : List α, (acc ++ l).Nodup → l.foldl pyInsert acc = acc ++ l := by
  induction l with
  | nil => intro acc _; simp
  | cons x xs ih =>
      intro acc h
      have hx : x ∉ acc := by
        rcases List.nodup_append.mp h with ⟨_, _, hdisj⟩
        exact fun hmem => hdisj hmem (List.mem_cons_self x xs)
      simp only [List.foldl_cons]
      rw [show pyInsert acc x = acc ++ [x] from by rw [pyInsert, if_neg hx]]
      rw [ih (acc ++ [x]) (by rw [List.append_assoc]; simpa using h)]
      simp

theorem pySet_of_nodup {α : Type} [DecidableEq α] {l : List α} (h : l.Nodup) :
    pySet l = l := by
  unfold pySet
  rw [foldl_pyInsert_of_nodup l [] (by simpa using h)]
  simp

/-! ## Lemmas about unordered-pair matching and the edge store -/

theorem pairUn_refl (a b : NodeId) : PairUn a b a b := Or.inl ⟨rfl, rfl⟩

theorem pairUn_swap_right {u v x y : NodeId} (h : PairUn u v x y) :
    PairUn u v y x := by
  unfold PairUn at *; tauto

theorem pairUn_swap_left {u v x y : NodeId} (h : PairUn u v x y) :
    PairUn v u x y := by
  unfold PairUn at *; tauto

theorem pairUn_congr {a b x y u v : NodeId} (h : PairUn a b x y) :
    PairUn u v a b ↔ PairUn u v x y := by
  rcases h with ⟨rfl, rfl⟩ | ⟨rfl, rfl⟩
  · exact Iff.rfl
  · unfold PairUn; tauto

theorem pairUn_compat {u v p q x y : NodeId} (h1 : PairUn u v x y)
    (h2 : PairUn p q x y) : PairUn u v p q := by
  rcases h2 with ⟨rfl, rfl⟩ | ⟨rfl, rfl⟩
  · exact h1
  · exact pairUn_swap_right h1

theorem pairUn_link {u v a b x y : NodeId} (h1 : PairUn u v a b)
    (h2 : PairUn u v x y) : PairUn a b x y := by
  rcases h1 with ⟨rfl, rfl⟩ | ⟨rfl, rfl⟩
  · exact h2
  · exact pairUn_swap_left h2

theorem findEdge_congr {a b x y : NodeId} (h : PairUn a b x y) :
    ∀ es : List EdgeEntry, findEdge es x y = findEdge es a b := by
  intro es
  induction es with
  | nil => rfl
  | cons e rest ih =>
      obtain ⟨u, v, cs⟩ := e
      simp only [findEdge]
      by_cases hp : PairUn u v a b
      · rw [if_pos hp, if_pos ((pairUn_congr h).mp hp)]
      · rw [if_neg hp, if_neg (fun hq => hp ((pairUn_congr h).mpr hq)), ih]

theorem findEdge_append (es₁ es₂ : List EdgeEntry) (x y : NodeId) :
    findEdge (es₁ ++ es₂) x y =
      match findEdge es₁ x y with
      | some cs => some cs
      | none => findEdge es₂ x y := by
  induction es₁ with
  | nil => rfl
  | cons e rest ih =>
      obtain ⟨u, v, cs⟩ := e
      simp only [List.cons_append, findEdge]
      by_cases hp : PairUn u v x y
      · simp only [if_pos hp]
      · simp only [if_neg hp]; exact ih

theorem findEdge_updateEdge_match {a b x y : NodeId} (h : PairUn a b x y)
    (es : List EdgeEntry) (f : List Correspondence → List Correspondence) :
    findEdge (updateEdge es a b f) x y = (findEdge es x y).map f := by
  induction es with
  | nil => rfl
  | cons e rest ih =>
      obtain ⟨u, v, cs⟩ := e
      simp only [updateEdge, findEdge]
      by_cases hp : PairUn u v a b
      · have hq := (pairUn_congr h).mp hp
        simp only [if_pos hp, findEdge, if_pos hq]
        rfl
      · have hq : ¬ PairUn u v x y := fun hq => hp ((pairUn_congr h).mpr hq)
        simp only [if_neg hp, findEdge, if_neg hq]
        exact ih

theorem findEdge_updateEdge_nomatch {a b x y : NodeId} (h : ¬ PairUn a b x y)
    (es : List EdgeEntry) (f : List Correspondence → List Correspondence) :
    findEdge (updateEdge es a b f) x y = findEdge es x y := by
  induction es with
  | nil => rfl
  | cons e rest ih =>
      obtain ⟨u, v, cs⟩ := e
      simp only [updateEdge, findEdge]
      by_cases hp : PairUn u v a b
      · have hq : ¬ PairUn u v x y := fun hq => h (pairUn_link hp hq)
        simp only [if_pos hp, findEdge, if_neg hq]
      · simp only [if_neg hp, findEdge]
        by_cases hq : PairUn u v x y
        · simp only [if_pos hq]
        · simp only [if_neg hq]; exact ih

theorem findEdge_mem {es : List EdgeEntry} {x y : NodeId}
    {cs : List Correspondence} (h : findEdge es x y = some cs) :
    ∃ u v, (u, v, cs) ∈ es := by
  induction es with
  | nil => exact absurd h (by simp [findEdge])
  | cons e rest ih =>
      obtain ⟨u, v, cs'⟩ := e
      simp only [findEdge] at h
      by_cases hp : PairUn u v x y
      · rw [if_pos hp] at h
        obtain rfl : cs' = cs := by injection h
        exact ⟨u, v, List.mem_cons_self _ _⟩
      · rw [if_neg hp] at h
        obtain ⟨u', v', hm⟩ := ih h
        exact ⟨u', v', List.mem_cons_of_mem _ hm⟩

/-! ## Lemmas about the graph operations -/

theorem has_edge_iff_findEdge {g : Graph} {a b : NodeId} :
    g.has_edge a b = true ↔ (findEdge g.edges a b).isSome = true := Iff.rfl

theorem has_edge_false_iff {g : Graph} {a b : NodeId} :
    g.has_edge a b = false ↔ findEdge g.edges a b = none := by
  unfold Graph.has_edge
  cases findEdge g.edges a b <;> simp

theorem findEdge_add_edge_self (g : Graph) (a b : NodeId) :
    findEdge (g.add_edge a b).edges a b = some (g.get_correspondences a b) := by
  unfold Graph.add_edge
  by_cases h : g.has_edge a b = true
  · rw [if_pos h]
    unfold Graph.has_edge at h
    obtain ⟨cs, hcs⟩ := Option.isSome_iff_exists.mp h
    rw [Graph.get_correspondences, hcs]
    rfl
  · rw [if_neg h]
    have hn : findEdge g.edges a b = none :=
      has_edge_false_iff.mp (Bool.not_eq_true _ ▸ h)
    show findEdge (g.edges ++ [(a, b, [])]) a b = _
    rw [findEdge_append, hn, Graph.get_correspondences, hn]
    simp only [findEdge, if_pos (pairUn_refl a b)]
    rfl

theorem findEdge_add_edge_other {a b x y : NodeId} (h : ¬ PairUn a b x y)
    (g : Graph) : findEdge (g.add_edge a b).edges x y = findEdge g.edges x y := by
  unfold Graph.add_edge
  by_cases he : g.has_edge a b = true
  · rw [if_pos he]
  · rw [if_neg he]
    show findEdge (g.edges ++ [(a, b, [])]) x y = _
    rw [findEdge_append]
    cases hf : findEdge g.edges x y with
    | some cs => rfl
    | none => simp only [findEdge, if_neg h]

theorem has_node_iff {g : Graph} {a : NodeId} :
    g.has_node a = true ↔ a ∈ g.nodes.map Prod.fst :=
  ⟨of_decide_eq_true, decide_eq_true⟩

theorem nwEnsureNode_of_mem {ns : NodeStore} {k : NodeId}
    (h : k ∈ ns.map Prod.fst) : nwEnsureNode ns k = ns := by
  rw [nwEnsureNode, if_pos h]

theorem add_edge_nodes_of_has {g : Graph} {a b : NodeId}
    (ha : g.has_node a = true) (hb : g.has_node b = true) :
    (g.add_edge a b).nodes = g.nodes := by
  unfold Graph.add_edge
  by_cases he : g.has_edge a b = true
  · rw [if_pos he]
  · rw [if_neg he]
    show nwEnsureNode (nwEnsureNode g.nodes a) b = g.nodes
    rw [nwEnsureNode_of_mem (has_node_iff.mp ha),
      nwEnsureNode_of_mem (has_node_iff.mp hb)]

theorem add_correspondence_nodes {g : Graph} {a b : NodeId}
    (ha : g.has_node a = true) (hb : g.has_node b = true)
    (c : Correspondence) : (g.add_correspondence a b c).nodes = g.nodes := by
  unfold Graph.add_correspondence
  exact add_edge_nodes_of_has ha hb

theorem mem_get_corr_add_correspondence (g : Graph) (a b : NodeId)
    (c : Correspondence) (x y : NodeId) (c' : Correspondence) :
    c' ∈ (g.add_correspondence a b c).get_correspondences x y ↔
      c' ∈ g.get_correspondences x y ∨ (PairUn a b x y ∧ c' = c) := by
  unfold Graph.add_correspondence
  by_cases hq : PairUn a b x y
  · rw [Graph.get_correspondences]
    show c' ∈ (findEdge (updateEdge (g.add_edge a b).edges a b
        (fun cs => pyInsert cs c)) x y).getD [] ↔ _
    rw [findEdge_updateEdge_match hq, findEdge_congr hq, findEdge_add_edge_self]
    have : g.get_correspondences x y = g.get_correspondences a b := by
      rw [Graph.get_correspondences, Graph.get_correspondences, findEdge_congr hq]
    rw [this]
    simp only [Option.map_some', Option.getD_some, mem_pyInsert]
    tauto
  · rw [Graph.get_correspondences]
    show c' ∈ (findEdge (updateEdge (g.add_edge a b).edges a b
        (fun cs => pyInsert cs c)) x y).getD [] ↔ _
    rw [findEdge_updateEdge_nomatch hq, findEdge_add_edge_other hq]
    rw [Graph.get_correspondences]
    tauto

/-! ## Claims about the graph store -/

/-- C10: for every graph and node ids `a`, `b`, `Graph.remove_correspondences(a, b)`
fails with a `TypeError` (its body calls `set_correspondences` with only the
correspondence-set argument, omitting both node ids), so the bulk-removal
operation never succeeds and never modifies the graph. -/
theorem C10_remove_correspondences_typeError (g : Graph) (a b : NodeId) :
    g.remove_correspondences a b = .error .typeError := rfl

/-- C1 (counter-evidence for the claimed behaviour, witnessing the code bug):
in a graph with nodes `"a"`, `"b"` whose pair holds exactly the one
correspondence `corr0`, `remove_correspondence("a", "b", corr0)` succeeds and
empties the pair's set, yet `has_edge("a", "b")` stays `true`: the re-test
`if not self.__graph.has_edge(...)` in the source can never succeed right
after the edge's attribute was accessed, so the emptied edge is never
removed, contradicting the claim that the edge ceases to exist. -/
theorem C1_remove_correspondence_keeps_empty_edge :
    graphAB1.get_correspondences "a" "b" = [corr0] ∧
    (graphAB1.remove_correspondence "a" "b" corr0).map
      (fun g => (g.has_edge "a" "b", g.get_correspondences "a" "b")) =
      .ok (true, []) :=
  ⟨rfl, rfl⟩

/-- C3 (counterexample): `add_edge(a, b)` does not fail when an endpoint is
absent from the node set.  On the empty graph, where `"a"` is not a node,
`add_edge("a", "b")` succeeds and creates the edge; the endpoints are
auto-inserted into the backing store without a `node` attribute, which makes
a later `get_nodes()` raise `KeyError`. -/
theorem C3_add_edge_counterexample :
    Graph.empty.has_node "a" = false ∧
    (Graph.empty.add_edge "a" "b").has_edge "a" "b" = true ∧
    (Graph.empty.add_edge "a" "b").get_nodes = .error .keyError :=
  ⟨rfl, rfl, rfl⟩

/-- C3 (amended): `add_edge(a, b)` never fails.  If the pair already has a
correspondence set the graph is left unchanged; otherwise an (initially
empty) correspondence set is created for the pair, and any endpoint absent
from the node set is implicitly inserted into the backing store without a
node value (no `NodeNotFound` error exists). -/
theorem C3_add_edge_amended (g : Graph) (a b : NodeId) :
    (g.has_edge a b = true → g.add_edge a b = g) ∧
    (g.has_edge a b = false →
      (g.add_edge a b).has_edge a b = true ∧
      (g.add_edge a b).get_correspondences a b = [] ∧
      (g.add_edge a b).edges = g.edges ++ [(a, b, [])] ∧
      (g.add_edge a b).nodes = nwEnsureNode (nwEnsureNode g.nodes a) b) := by
  constructor
  · intro h
    unfold Graph.add_edge
    rw [if_pos h]
  · intro h
    have hne : ¬ g.has_edge a b = true := by simp [h]
    have hfe : findEdge g.edges a b = none := has_edge_false_iff.mp h
    refine ⟨?_, ?_, ?_, ?_⟩
    · unfold Graph.has_edge
      rw [findEdge_add_edge_self]
      rfl
    · rw [Graph.get_correspondences, findEdge_add_edge_self,
        Graph.get_correspondences, hfe]
      rfl
    · unfold Graph.add_edge
      rw [if_neg hne]
    · unfold Graph.add_edge
      rw [if_neg hne]

/-- Witness for `C3_add_edge_amended`: on `graphAB` (nodes `"a"`, `"b"`, no
edge) the hypothesis of the second part holds and `add_edge` creates the
edge. -/
theorem C3_add_edge_amended_witness :
    graphAB.has_edge "a" "b" = false ∧
    (graphAB.add_edge "a" "b").has_edge "a" "b" = true ∧
    (graphAB.add_edge "a" "b").get_correspondences "a" "b" = [] :=
  ⟨rfl, ((C3_add_edge_amended graphAB "a" "b").2 rfl).1,
    ((C3_add_edge_amended graphAB "a" "b").2 rfl).2.1⟩

/-- C4 (counterexample): `set_correspondences(a, b, ∅)` does not leave
`has_edge(a, b)` false.  On a graph with nodes `"a"`, `"b"` and no edge,
setting the empty set creates the edge (with an empty correspondence set)
rather than never creating it. -/
theorem C4_set_correspondences_counterexample :
    graphAB.has_edge "a" "b" = false ∧
    (graphAB.set_correspondences "a" "b" []).has_edge "a" "b" = true :=
  ⟨rfl, rfl⟩

/-- C4 (amended): for every graph and node ids, `set_correspondences(a, b, s)`
always ensures the edge exists — also when `s` is empty, in which case the
pair afterwards has an (existing) empty correspondence set — and replaces the
pair's entire correspondence set by the set of elements of `s`, leaving every
other pair untouched. -/
theorem C4_set_correspondences_amended (g : Graph) (a b : NodeId)
    (s : List Correspondence) :
    (g.set_correspondences a b s).has_edge a b = true ∧
    (∀ c, c ∈ (g.set_correspondences a b s).get_correspondences a b ↔ c ∈ s) ∧
    (∀ x y, ¬ PairUn a b x y →
      (g.set_correspondences a b s).get_correspondences x y =
        g.get_correspondences x y) := by
  refine ⟨?_, ?_, ?_⟩
  · show ((findEdge (updateEdge (g.add_edge a b).edges a b
      (fun _ => pySet s)) a b).isSome) = true
    rw [findEdge_updateEdge_match (pairUn_refl a b), findEdge_add_edge_self]
    rfl
  · intro c
    show c ∈ (findEdge (updateEdge (g.add_edge a b).edges a b
      (fun _ => pySet s)) a b).getD [] ↔ _
    rw [findEdge_updateEdge_match (pairUn_refl a b), findEdge_add_edge_self]
    simp only [Option.map_some', Option.getD_some]
    exact mem_pySet
  · intro x y hxy
    show (findEdge (updateEdge (g.add_edge a b).edges a b
      (fun _ => pySet s)) x y).getD [] = _
    rw [findEdge_updateEdge_nomatch hxy, findEdge_add_edge_other hxy]
    rfl

/-- Witness for `C4_set_correspondences_amended` at a concrete input:
replacing the pair's set by `[corr1]` on `graphAB1` yields exactly `corr1`
and leaves the unrelated pair `("x", "y")` untouched. -/
theorem C4_set_correspondences_amended_witness :
    (graphAB1.set_correspondences "a" "b" [corr1]).has_edge "a" "b" = true ∧
    (corr1 ∈ (graphAB1.set_correspondences "a" "b" [corr1]).get_correspondences "a" "b" ↔
      corr1 ∈ [corr1]) ∧
    (graphAB1.set_correspondences "a" "b" [corr1]).get_correspondences "x" "y" =
      graphAB1.get_correspondences "x" "y" :=
  ⟨(C4_set_correspondences_amended graphAB1 "a" "b" [corr1]).1,
    (C4_set_correspondences_amended graphAB1 "a" "b" [corr1]).2.1 corr1,
    (C4_set_correspondences_amended graphAB1 "a" "b" [corr1]).2.2 "x" "y"
      (by decide)⟩

/-- C5 (counterexample): `remove_correspondence(a, b, c)` does not fail when
the pair has no edge at all: on a graph with nodes `"a"`, `"b"` and no edge
it is a silent no-op returning the graph unchanged, instead of failing as
the claim requires. -/
theorem C5_remove_correspondence_counterexample :
    graphAB.has_edge "a" "b" = false ∧
    graphAB.remove_correspondence "a" "b" corr0 = .ok graphAB :=
  ⟨rfl, rfl⟩

/-- C5 (amended): when the pair has no edge, `remove_correspondence` is a
silent no-op; when the pair has an edge whose set lacks `c`, it fails (with
Python's `KeyError` from `set.remove`; no `CorrespondenceNotFound` class
exists); otherwise it removes exactly `c` from the pair's set, leaving all
other correspondences and all other pairs unchanged.  The hypothesis that
every stored correspondence list is duplicate-free holds for every Python
set. -/
theorem C5_remove_correspondence_amended (g : Graph) (a b : NodeId)
    (c : Correspondence)
    (hnd : ∀ e ∈ g.edges, (e.2.2 : List Correspondence).Nodup) :
    (g.has_edge a b = false → g.remove_correspondence a b c = .ok g) ∧
    (∀ cs, findEdge g.edges a b = some cs →
      (c ∉ cs → g.remove_correspondence a b c = .error .keyError) ∧
      (c ∈ cs → ∃ g', g.remove_correspondence a b c = .ok g' ∧
        g'.has_edge a b = true ∧
        (∀ c', c' ∈ g'.get_correspondences a b ↔
          c' ∈ g.get_correspondences a b ∧ c' ≠ c) ∧
        (∀ x y, ¬ PairUn a b x y →
          g'.get_correspondences x y = g.get_correspondences x y))) := by
  constructor
  · intro h
    have hfe : findEdge g.edges a b = none := has_edge_false_iff.mp h
    unfold Graph.remove_correspondence
    rw [hfe]
  · intro cs hcs
    constructor
    · intro hc
      unfold Graph.remove_correspondence
      rw [hcs]
      simp only [if_neg hc]
    · intro hc
      have hnodup : cs.Nodup := by
        obtain ⟨u, v, hm⟩ := findEdge_mem hcs
        exact hnd (u, v, cs) hm
      have hupd : findEdge (updateEdge g.edges a b (fun cs => cs.erase c)) a b =
          some (cs.erase c) := by
        rw [findEdge_updateEdge_match (pairUn_refl a b), hcs]
        rfl
      have hhe : ({ g with edges := updateEdge g.edges a b (fun cs => cs.erase c) } : Graph).has_edge a b = true := by
        unfold Graph.has_edge
        rw [hupd]
        rfl
      refine ⟨{ g with edges := updateEdge g.edges a b (fun cs => cs.erase c) },
        ?_, hhe, ?_, ?_⟩
      · unfold Graph.remove_correspondence
        rw [hcs]
        simp only [if_pos hc, hhe, if_pos]
      · intro c'
        show c' ∈ (findEdge (updateEdge g.edges a b
          (fun cs => cs.erase c)) a b).getD [] ↔ _
        rw [hupd, Graph.get_correspondences, hcs]
        simp only [Option.getD_some]
        rw [hnodup.mem_erase_iff]
        tauto
      · intro x y hxy
        show (findEdge (updateEdge g.edges a b
          (fun cs => cs.erase c)) x y).getD [] = _
        rw [findEdge_updateEdge_nomatch hxy]
        rfl

/-- Witness for `C5_remove_correspondence_amended` at concrete inputs: on
`graphAB1` (one edge with set `[corr0]`), removing the absent `corr1` raises
`KeyError` and removing the present `corr0` succeeds. -/
theorem C5_remove_correspondence_amended_witness :
    graphAB1.remove_correspondence "a" "b" corr1 = .error .keyError ∧
    ∃ g', graphAB1.remove_correspondence "a" "b" corr0 = .ok g' ∧
      g'.has_edge "a" "b" = true ∧
      (∀ c', c' ∈ g'.get_correspondences "a" "b" ↔
        c' ∈ graphAB1.get_correspondences "a" "b" ∧ c' ≠ corr0) ∧
      (∀ x y, ¬ PairUn "a" "b" x y →
        g'.get_correspondences x y = graphAB1.get_correspondences x y) := by
  have h := C5_remove_correspondence_amended graphAB1 "a" "b" corr0
    (by intro e he; fin_cases he; decide)
  have h' := C5_remove_correspondence_amended graphAB1 "a" "b" corr1
    (by intro e he; fin_cases he; decide)
  exact ⟨((h'.2 [corr0] rfl).1 (by decide)),
    (h.2 [corr0] rfl).2 (by decide)⟩

/-! ## Lemmas for the serialization round trip -/

theorem foldl_add_node_edges (l : List Node) (g : Graph) :
    (l.foldl Graph.add_node g).edges = g.edges := by
  induction l generalizing g with
  | nil => rfl
  | cons n ns ih => rw [List.foldl_cons]; exact ih _

theorem nwAddNode_absent {ns : NodeStore} {k : NodeId}
    (h : k ∉ ns.map Prod.fst) (v : Option Node) :
    nwAddNode ns k v = ns ++ [(k, v)] := by
  induction ns with
  | nil => rfl
  | cons p rest ih =>
      obtain ⟨k', v'⟩ := p
      simp only [List.map_cons, List.mem_cons] at h
      push_neg at h
      simp only [nwAddNode]
      rw [if_neg (fun hk => h.1 hk.symm), ih h.2]
      rfl

theorem foldl_add_node_nodes (l : List Node) :
    ∀ g : Graph, (∀ n ∈ l, n.id ∉ g.nodes.map Prod.fst) →
      (l.map Node.id).Nodup →
      (l.foldl Graph.add_node g).nodes =
        g.nodes ++ l.map (fun n => (n.id, some n)) := by
  induction l with
  | nil => intro g _ _; simp
  | cons n ns ih =>
      intro g habs hnd
      have h1 : n.id ∉ g.nodes.map Prod.fst := habs n (List.mem_cons_self n ns)
      have hstep : (g.add_node n).nodes = g.nodes ++ [(n.id, some n)] :=
        nwAddNode_absent h1 _
      simp only [List.foldl_cons]
      rw [ih (g.add_node n) ?_ (List.nodup_cons.mp hnd).2, hstep]
      · simp
      · intro m hm
        rw [hstep]
        simp only [List.map_append, List.mem_append, List.map_cons,
          List.map_nil, List.mem_singleton]
        rintro (h | h)
        · exact habs m (List.mem_cons_of_mem n hm) h
        · exact (List.nodup_cons.mp hnd).1 (h ▸ List.mem_map_of_mem Node.id hm)

theorem getNodesAux_map (l : List Node) :
    Graph.getNodesAux (l.map (fun n => (n.id, some n))) = .ok l := by
  induction l with
  | nil => rfl
  | cons n ns ih => simp only [List.map_cons, Graph.getNodesAux, ih]; rfl

theorem get_nodes_of_store {g : Graph} {l : List Node}
    (hg : g.nodes = l.map (fun n => (n.id, some n))) (hnd : l.Nodup) :
    g.get_nodes = .ok l := by
  unfold Graph.get_nodes
  rw [hg, getNodesAux_map]
  show Except.ok (pySet l) = _
  rw [pySet_of_nodup hnd]

theorem has_node_congr {g g' : Graph} (h : g'.nodes = g.nodes) (k : NodeId) :
    g'.has_node k = g.has_node k := by
  unfold Graph.has_node; rw [h]

theorem to_dict_eq {g : Graph} {l : List Node}
    (hg : g.nodes = l.map (fun n => (n.id, some n))) (hnd : l.Nodup) :
    g.to_dict = .ok ⟨l, g.edges.map (fun e => ⟨e.1, e.2.1, e.2.2⟩)⟩ := by
  unfold Graph.to_dict
  rw [get_nodes_of_store hg hnd]
  rfl

theorem mem_get_corr_foldl_inner (cs : List Correspondence) :
    ∀ (g : Graph) (s t x y : NodeId) (c' : Correspondence),
      c' ∈ ((cs.foldl (fun g c => g.add_correspondence s t c) g).get_correspondences x y) ↔
        c' ∈ g.get_correspondences x y ∨ (PairUn s t x y ∧ c' ∈ cs) := by
  induction cs with
  | nil => intro g s t x y c'; simp
  | cons c rest ih =>
      intro g s t x y c'
      simp only [List.foldl_cons]
      rw [ih, mem_get_corr_add_correspondence]
      simp only [List.mem_cons]
      tauto

theorem mem_get_corr_foldl_edges (es : List EdgeDict) :
    ∀ (g : Graph) (x y : NodeId) (c' : Correspondence),
      c' ∈ ((es.foldl (fun g e => e.correspondences.foldl
          (fun g c => g.add_correspondence e.src e.dest c) g) g).get_correspondences x y) ↔
        c' ∈ g.get_correspondences x y ∨
          ∃ e ∈ es, PairUn e.src e.dest x y ∧ c' ∈ e.correspondences := by
  induction es with
  | nil => intro g x y c'; simp
  | cons e rest ih =>
      intro g x y c'
      simp only [List.foldl_cons]
      rw [ih, mem_get_corr_foldl_inner, or_assoc]
      apply or_congr_right
      constructor
      · rintro (⟨hq, hc⟩ | ⟨e', he', h⟩)
        · exact ⟨e, List.mem_cons_self e rest, hq, hc⟩
        · exact ⟨e', List.mem_cons_of_mem e he', h⟩
      · rintro ⟨e', he', h⟩
        rcases List.mem_cons.mp he' with rfl | he'
        · exact Or.inl ⟨h.1, h.2⟩
        · exact Or.inr ⟨e', he', h⟩

theorem foldl_inner_nodes (cs : List Correspondence) :
    ∀ (g : Graph) (s t : NodeId), g.has_node s = true → g.has_node t = true →
      (cs.foldl (fun g c => g.add_correspondence s t c) g).nodes = g.nodes := by
  induction cs with
  | nil => intro g s t _ _; rfl
  | cons c rest ih =>
      intro g s t hs ht
      have hn := add_correspondence_nodes hs ht c
      simp only [List.foldl_cons]
      rw [ih (g.add_correspondence s t c) s t
        (by rw [has_node_congr hn]; exact hs)
        (by rw [has_node_congr hn]; exact ht), hn]

theorem foldl_edges_nodes (es : List EdgeDict) :
    ∀ g : Graph,
      (∀ e ∈ es, g.has_node e.src = true ∧ g.has_node e.dest = true) →
      ((es.foldl (fun g e => e.correspondences.foldl
          (fun g c => g.add_correspondence e.src e.dest c) g) g).nodes = g.nodes) := by
  induction es with
  | nil => intro g _; rfl
  | cons e rest ih =>
      intro g hend
      have he := hend e (List.mem_cons_self e rest)
      have hn := foldl_inner_nodes e.correspondences g e.src e.dest he.1 he.2
      simp only [List.foldl_cons]
      rw [ih _ ?_, hn]
      intro e' he'
      rw [has_node_congr hn, has_node_congr hn]
      exact hend e' (List.mem_cons_of_mem e he')

theorem mem_findEdge_getD_iff (es : List EdgeEntry)
    (hdist : es.Pairwise (fun e e' => ¬ PairUn e.1 e.2.1 e'.1 e'.2.1))
    (x y : NodeId) (c : Correspondence) :
    c ∈ (findEdge es x y).getD [] ↔
      ∃ e ∈ es, PairUn e.1 e.2.1 x y ∧ c ∈ e.2.2 := by
  induction es with
  | nil => simp [findEdge]
  | cons e rest ih =>
      obtain ⟨u, v, cs⟩ := e
      have hdist' := List.pairwise_cons.mp hdist
      simp only [findEdge]
      by_cases hq : PairUn u v x y
      · rw [if_pos hq]
        simp only [Option.getD_some]
        constructor
        · intro hc; exact ⟨(u, v, cs), List.mem_cons_self _ _, hq, hc⟩
        · rintro ⟨e', he', hqe, hce⟩
          rcases List.mem_cons.mp he' with rfl | he'
          · exact hce
          · exact absurd (pairUn_compat hq hqe) (hdist'.1 e' he')
      · rw [if_neg hq, ih hdist'.2]
        constructor
        · rintro ⟨e', he', h⟩; exact ⟨e', List.mem_cons_of_mem _ he', h⟩
        · rintro ⟨e', he', hqe, hce⟩
          rcases List.mem_cons.mp he' with rfl | he'
          · exact absurd hqe hq
          · exact ⟨e', he', hqe, hce⟩

theorem forall₂_mem_right {α : Type} {R : α → α → Prop} :
    ∀ {l l' : List α}, List.Forall₂ R l l' → ∀ b ∈ l', ∃ a ∈ l, R a b := by
  intro l l' h
  induction h with
  | nil => intro b hb; exact absurd hb (List.not_mem_nil b)
  | cons h₁ h₂ ih =>
      intro b hb
      rcases List.mem_cons.mp hb with rfl | hb
      · exact ⟨_, List.mem_cons_self _ _, h₁⟩
      · obtain ⟨a, ha, hr⟩ := ih b hb
        exact ⟨a, List.mem_cons_of_mem _ ha, hr⟩

theorem exists_mem_iff_of_forall₂ {α : Type} {R : α → α → Prop} {P : α → Prop}
    (hPQ : ∀ a b, R a b → (P a ↔ P b)) :
    ∀ {l l' : List α}, List.Forall₂ R l l' →
      ((∃ e ∈ l, P e) ↔ ∃ e ∈ l', P e) := by
  intro l l' h
  induction h with
  | nil => exact Iff.rfl
  | cons h₁ h₂ ih =>
      constructor
      · rintro ⟨e, he, hp⟩
        rcases List.mem_cons.mp he with rfl | he
        · exact ⟨_, List.mem_cons_self _ _, (hPQ _ _ h₁).mp hp⟩
        · obtain ⟨e', he', hp'⟩ := ih.mp ⟨e, he, hp⟩
          exact ⟨e', List.mem_cons_of_mem _ he', hp'⟩
      · rintro ⟨e, he, hp⟩
        rcases List.mem_cons.mp he with rfl | he
        · exact ⟨_, List.mem_cons_self _ _, (hPQ _ _ h₁).mpr hp⟩
        · obtain ⟨e', he', hp'⟩ := ih.mpr ⟨e, he, hp⟩
          exact ⟨e', List.mem_cons_of_mem _ he', hp'⟩

theorem exists_mem_iff_of_perm {α : Type} {P : α → Prop} {l l' : List α}
    (h : l.Perm l') : (∃ e ∈ l, P e) ↔ ∃ e ∈ l', P e := by
  constructor
  · rintro ⟨e, he, hp⟩; exact ⟨e, h.mem_iff.mp he, hp⟩
  · rintro ⟨e, he, hp⟩; exact ⟨e, h.mem_iff.mpr he, hp⟩

/-- C2: for every graph built through the store's own operations (formalized
by `Graph.WF`: every edge endpoint is present in the node set, node ids are
unique, and edge pairs are distinct), reading back any reordering `d'` of
the dictionary produced by `to_dict` — nodes permuted, edges permuted, each
edge's correspondence list permuted — yields a graph with the same node set
and, for every pair of node ids, the same correspondence set. -/
theorem C2_roundtrip (g : Graph) (hwf : g.WF) (d₀ d' : GraphDict)
    (hd : g.to_dict = .ok d₀) (hp : d₀.PermOf d') :
    (∃ ns ns', g.get_nodes = .ok ns ∧ (Graph.from_dict d').get_nodes = .ok ns' ∧
      (∀ n, n ∈ ns' ↔ n ∈ ns)) ∧
    (∀ x y c, c ∈ (Graph.from_dict d').get_correspondences x y ↔
      c ∈ g.get_correspondences x y) := by
  obtain ⟨l, hgnodes, hlid, hends, hdist⟩ := hwf
  have hlnd : l.Nodup := hlid.of_map
  have hgn : g.get_nodes = .ok l := get_nodes_of_store hgnodes hlnd
  have hd₀ : d₀ = ⟨l, g.edges.map (fun e => ⟨e.1, e.2.1, e.2.2⟩)⟩ := by
    rw [to_dict_eq hgnodes hlnd] at hd
    injection hd with h
    exact h.symm
  subst hd₀
  obtain ⟨hpnodes, mid, hpmid, hf⟩ := hp
  have hidperm : (l.map Node.id).Perm (d'.nodes.map Node.id) := hpnodes.map _
  have hd'nd : (d'.nodes.map Node.id).Nodup := hidperm.nodup_iff.mp hlid
  have hd'lnd : d'.nodes.Nodup := hd'nd.of_map
  have hfd : Graph.from_dict d' = d'.edges.foldl
      (fun g e => e.correspondences.foldl
        (fun g c => g.add_correspondence e.src e.dest c) g)
      (d'.nodes.foldl Graph.add_node Graph.empty) := rfl
  have hg1nodes : (d'.nodes.foldl Graph.add_node Graph.empty).nodes =
      d'.nodes.map (fun n => (n.id, some n)) := by
    have h := foldl_add_node_nodes d'.nodes Graph.empty
      (fun n _ hmem => absurd hmem (List.not_mem_nil _)) hd'nd
    simpa [Graph.empty] using h
  have hg1edges : (d'.nodes.foldl Graph.add_node Graph.empty).edges = [] :=
    foldl_add_node_edges d'.nodes Graph.empty
  have hend' : ∀ e ∈ d'.edges, e.src ∈ d'.nodes.map Node.id ∧
      e.dest ∈ d'.nodes.map Node.id := by
    intro e he
    obtain ⟨em, hem, hrel⟩ := forall₂_mem_right hf e he
    obtain ⟨ee, hee, heq⟩ := List.mem_map.mp (hpmid.mem_iff.mpr hem)
    have hsrc : em.src = ee.1 := by rw [← heq]
    have hdest : em.dest = ee.2.1 := by rw [← heq]
    obtain ⟨h1, h2⟩ := hends ee hee
    obtain ⟨hrs, hrd, _⟩ := hrel
    constructor
    · rw [← hrs, hsrc]; exact hidperm.mem_iff.mp h1
    · rw [← hrd, hdest]; exact hidperm.mem_iff.mp h2
  have hkeys : (d'.nodes.foldl Graph.add_node Graph.empty).nodes.map Prod.fst =
      d'.nodes.map Node.id := by
    rw [hg1nodes, List.map_map]
    rfl
  have hnode' : ∀ e ∈ d'.edges,
      (d'.nodes.foldl Graph.add_node Graph.empty).has_node e.src = true ∧
      (d'.nodes.foldl Graph.add_node Graph.empty).has_node e.dest = true := by
    intro e he
    obtain ⟨h1, h2⟩ := hend' e he
    exact ⟨has_node_iff.mpr (by rw [hkeys]; exact h1),
      has_node_iff.mpr (by rw [hkeys]; exact h2)⟩
  have hfdnodes : (Graph.from_dict d').nodes =
      d'.nodes.map (fun n => (n.id, some n)) := by
    rw [hfd, foldl_edges_nodes d'.edges _ hnode', hg1nodes]
  constructor
  · exact ⟨l, d'.nodes, hgn, get_nodes_of_store hfdnodes hd'lnd,
      fun n => (hpnodes.mem_iff).symm⟩
  · intro x y c
    rw [hfd, mem_get_corr_foldl_edges]
    have hg1corr : (d'.nodes.foldl Graph.add_node Graph.empty).get_correspondences x y = [] := by
      show (findEdge (d'.nodes.foldl Graph.add_node Graph.empty).edges x y).getD [] = []
      rw [hg1edges]
      rfl
    rw [hg1corr]
    simp only [List.not_mem_nil, false_or]
    have t1 : (∃ e ∈ mid, PairUn e.src e.dest x y ∧ c ∈ e.correspondences) ↔
        ∃ e ∈ d'.edges, PairUn e.src e.dest x y ∧ c ∈ e.correspondences :=
      exists_mem_iff_of_forall₂ (fun a b hab => by
        obtain ⟨hs, hdd, hcp⟩ := hab
        rw [hs, hdd, hcp.mem_iff]) hf
    have t2 : (∃ e ∈ g.edges.map (fun e => (⟨e.1, e.2.1, e.2.2⟩ : EdgeDict)),
        PairUn e.src e.dest x y ∧ c ∈ e.correspondences) ↔
        ∃ e ∈ mid, PairUn e.src e.dest x y ∧ c ∈ e.correspondences :=
      exists_mem_iff_of_perm hpmid
    have t3 : (∃ e ∈ g.edges.map (fun e => (⟨e.1, e.2.1, e.2.2⟩ : EdgeDict)),
        PairUn e.src e.dest x y ∧ c ∈ e.correspondences) ↔
        ∃ ee ∈ g.edges, PairUn ee.1 ee.2.1 x y ∧ c ∈ ee.2.2 := by
      constructor
      · rintro ⟨e, he, hq, hc⟩
        obtain ⟨ee, hee, heq⟩ := List.mem_map.mp he
        subst heq
        exact ⟨ee, hee, hq, hc⟩
      · rintro ⟨ee, hee, hq, hc⟩
        exact ⟨⟨ee.1, ee.2.1, ee.2.2⟩, List.mem_map_of_mem _ hee, hq, hc⟩
    rw [← t1, ← t2, t3]
    exact (mem_findEdge_getD_iff g.edges hdist x y c).symm

/-- Witness for `C2_roundtrip`: the two-node graph `graphAB1` serialized and
read back from a reordered dictionary (nodes listed in the opposite order)
keeps its node set and correspondence sets. -/
theorem C2_roundtrip_witness :
    (∃ ns ns', graphAB1.get_nodes = .ok ns ∧
      (Graph.from_dict ⟨[nodeB, nodeA], [⟨"a", "b", [corr0]⟩]⟩).get_nodes = .ok ns' ∧
      (∀ n, n ∈ ns' ↔ n ∈ ns)) ∧
    (∀ x y c,
      c ∈ (Graph.from_dict ⟨[nodeB, nodeA], [⟨"a", "b", [corr0]⟩]⟩).get_correspondences x y ↔
      c ∈ graphAB1.get_correspondences x y) :=
  C2_roundtrip graphAB1
    ⟨[nodeA, nodeB], rfl, by decide, by decide, by decide⟩
    ⟨[nodeA, nodeB], [⟨"a", "b", [corr0]⟩]⟩
    ⟨[nodeB, nodeA], [⟨"a", "b", [corr0]⟩]⟩
    rfl
    ⟨by decide, [⟨"a", "b", [corr0]⟩], List.Perm.refl _,
      List.Forall₂.cons ⟨rfl, rfl, List.Perm.refl _⟩ List.Forall₂.nil⟩

/-! ## Claims about the matching engine and the point map -/

theorem normLt_iff {dx dy t : ℚ} :
    normLt dx dy t = true ↔ 0 < t ∧ dx ^ 2 + dy ^ 2 < t ^ 2 := by
  unfold normLt
  simp

theorem keepMatch_iff {threshold : ℚ} {kp1 kp2 : List Point}
    {H : Point → Point} {h2 w2 : ℚ} {m : DMatch} :
    HomographyFilter.keepMatch threshold kp1 kp2 H h2 w2 m = true ↔
      0 < threshold ∧
      ((kp2.getD m.trainIdx ⟨0, 0⟩).x - (H (kp1.getD m.queryIdx ⟨0, 0⟩)).x) ^ 2 / w2 ^ 2 +
      ((kp2.getD m.trainIdx ⟨0, 0⟩).y - (H (kp1.getD m.queryIdx ⟨0, 0⟩)).y) ^ 2 / h2 ^ 2 <
      threshold ^ 2 := by
  show normLt _ _ _ = true ↔ _
  rw [normLt_iff, div_pow, div_pow]

/-- C9: for every inner-matcher result with fewer than 10 matches the filter
returns everything unfiltered; with 10 or more matches (and a successfully
fitted homography `H`), a match is kept iff the Euclidean norm of the
residual between its image-2 point and the projected image-1 point,
normalized per-axis by image 2's `(width, height)`, is strictly below the
threshold (the norm comparison is expressed by comparing squares). -/
theorem C9_homography_filter_spec (threshold : ℚ) (inner : MatchResult)
    (findHomography : List (Point × Point) → Option (Point → Point))
    (h2 w2 : ℚ) :
    (inner.dmatches.length < 10 →
      HomographyFilter.matchOp threshold inner findHomography h2 w2 = .ok inner) ∧
    (10 ≤ inner.dmatches.length → ∀ H, findHomography inner.srcDst = some H →
      ∃ kept, HomographyFilter.matchOp threshold inner findHomography h2 w2 =
          .ok ⟨kept, inner.kp1, inner.kp2⟩ ∧
        ∀ m, m ∈ kept ↔ m ∈ inner.dmatches ∧ (0 < threshold ∧
          ((inner.kp2.getD m.trainIdx ⟨0, 0⟩).x -
            (H (inner.kp1.getD m.queryIdx ⟨0, 0⟩)).x) ^ 2 / w2 ^ 2 +
          ((inner.kp2.getD m.trainIdx ⟨0, 0⟩).y -
            (H (inner.kp1.getD m.queryIdx ⟨0, 0⟩)).y) ^ 2 / h2 ^ 2 <
          threshold ^ 2)) := by
  constructor
  · intro h
    unfold HomographyFilter.matchOp
    rw [if_neg (by simp only [HomographyFilter.MIN_MATCH_COUNT]; omega)]
  · intro h H hH
    unfold HomographyFilter.matchOp
    rw [if_pos (by simpa only [HomographyFilter.MIN_MATCH_COUNT] using h), hH]
    refine ⟨_, rfl, ?_⟩
    intro m
    rw [List.mem_filter, keepMatch_iff]

/-- Witness for `C9_homography_filter_spec`: an inner result with exactly 9
matches is returned unfiltered (the spec's 9-match scenario). -/
theorem C9_homography_filter_spec_witness :
    (MatchResult.mk (List.replicate 9 ⟨0, 0, 0⟩) [] []).dmatches.length < 10 ∧
    HomographyFilter.matchOp 0.2 ⟨List.replicate 9 ⟨0, 0, 0⟩, [], []⟩
      (fun _ => none) 1 1 = .ok ⟨List.replicate 9 ⟨0, 0, 0⟩, [], []⟩ :=
  ⟨by decide,
    (C9_homography_filter_spec 0.2 ⟨List.replicate 9 ⟨0, 0, 0⟩, [], []⟩
      (fun _ => none) 1 1).1 (by decide)⟩

/-- C6 (code-bug evidence): geometry-estimation failure in
`DoubleORBMatcher.match` surfaces as the generic OpenCV exception, never as
a `GeometryEstimationFailed` error (no such class exists in the code base).
First conjunct: four coarse matches but RANSAC finds no model
(`cv2.findHomography` returns `None`), so the unguarded
`cv2.perspectiveTransform(pts1, None)` raises the generic `cv2.error`.
Second conjunct: no coarse matches at all, so `cv2.findHomography` itself
raises the generic `cv2.error` (fewer than 4 point pairs). -/
theorem C6_doubleorb_geometry_failure_generic :
    DoubleORBMatcher.matchOp 0.01 0.15
      ⟨[⟨0, 0, 0⟩, ⟨0, 0, 0⟩, ⟨0, 0, 0⟩, ⟨0, 0, 0⟩], [⟨0, 0⟩], [⟨0, 0⟩]⟩
      (fun _ => none) [] [] (fun _ _ => 0) (fun _ _ => 0) 1 1 1 1 =
      .error .cv2Error ∧
    DoubleORBMatcher.matchOp 0.01 0.15 ⟨[], [], []⟩
      (fun _ => some id) [] [] (fun _ _ => 0) (fun _ _ => 0) 1 1 1 1 =
      .error .cv2Error :=
  ⟨rfl, rfl⟩

/-- C7 (code-bug evidence): `HomographicPointMap.__init__` performs no
checks of its own (the source's TODO admits as much).  First conjunct: three
correspondences make `cv2.findHomography` raise the generic `cv2.error`, not
an `InsufficientCorrespondences` error (no such class exists).  Second
conjunct: four collinear correspondences on which the estimator finds no
model make the constructor succeed, producing a point map whose stored
matrix is `None` — no `DegenerateConfiguration` error is raised and a
(broken) point map is produced. -/
theorem C7_pointmap_failures :
    HomographicPointMap.init (fun _ => some id)
      [⟨⟨0, 0⟩, ⟨0, 0⟩⟩, ⟨⟨1, 0⟩, ⟨1, 0⟩⟩, ⟨⟨2, 0⟩, ⟨2, 0⟩⟩] = .error .cv2Error ∧
    (HomographicPointMap.init (fun _ => none)
      [⟨⟨0, 0⟩, ⟨0, 0⟩⟩, ⟨⟨1, 0⟩, ⟨1, 0⟩⟩, ⟨⟨2, 0⟩, ⟨2, 0⟩⟩, ⟨⟨3, 0⟩, ⟨3, 0⟩⟩]).map
      (fun pm => pm.M.isNone) = .ok true :=
  ⟨rfl, rfl⟩

/-- Invariant of the greedy spatial suppression loop: if the accumulated
chosen keypoints are exactly the image-1 keypoints of the accumulated
matches and are pairwise farther apart than `thr`, the same holds after
folding any further candidate list. -/
theorem nms_fold_invariant (eNorm : Point → Point → ℚ) (kp1 : List Point)
    (thr : ℚ) (hsym : ∀ p q, eNorm p q = eNorm q p) :
    ∀ (l : List DMatch) (accM : List DMatch) (accP : List Point),
      accP = accM.map (fun m => kp1.getD m.queryIdx ⟨0, 0⟩) →
      accP.Pairwise (fun p q => thr < eNorm p q) →
      ((l.foldl (nmsStep eNorm kp1 thr) (accM, accP)).2 =
        (l.foldl (nmsStep eNorm kp1 thr) (accM, accP)).1.map
          (fun m => kp1.getD m.queryIdx ⟨0, 0⟩) ∧
       (l.foldl (nmsStep eNorm kp1 thr) (accM, accP)).2.Pairwise
          (fun p q => thr < eNorm p q)) := by
  intro l
  induction l with
  | nil => intro accM accP h1 h2; exact ⟨h1, h2⟩
  | cons m rest ih =>
      intro accM accP h1 h2
      simp only [List.foldl_cons]
      by_cases hc : accP.all
          (fun p => decide (thr < eNorm (kp1.getD m.queryIdx ⟨0, 0⟩) p)) = true
      · have hstep : nmsStep eNorm kp1 thr (accM, accP) m =
            (accM ++ [m], accP ++ [kp1.getD m.queryIdx ⟨0, 0⟩]) := by
          simp only [nmsStep]
          rw [if_pos hc]
        rw [hstep]
        apply ih
        · rw [h1]; simp
        · rw [List.pairwise_append]
          refine ⟨h2, List.pairwise_singleton _ _, ?_⟩
          intro p hp q hq
          rw [List.mem_singleton] at hq
          subst hq
          rw [hsym]
          exact of_decide_eq_true (List.all_eq_true.mp hc p hp)
      · have hstep : nmsStep eNorm kp1 thr (accM, accP) m = (accM, accP) := by
          simp only [nmsStep]
          rw [if_neg hc]
        rw [hstep]
        exact ih accM accP h1 h2

/-- The first component of the suppression fold, started empty, is pairwise
separated by more than `thr` on image-1 keypoints; stated with `≤` as the
claim requires. -/
theorem nms_result_pairwise (eNorm : Point → Point → ℚ) (kp1 : List Point)
    (thr : ℚ) (hsym : ∀ p q, eNorm p q = eNorm q p) (l : List DMatch) :
    ((l.foldl (nmsStep eNorm kp1 thr) ([], [])).1).Pairwise
      (fun m m' => thr ≤
        eNorm (kp1.getD m.queryIdx ⟨0, 0⟩) (kp1.getD m'.queryIdx ⟨0, 0⟩)) := by
  have hinv := nms_fold_invariant eNorm kp1 thr hsym l [] [] rfl List.Pairwise.nil
  have hmap := hinv.1 ▸ hinv.2
  rw [List.pairwise_map] at hmap
  exact hmap.imp (fun h => le_of_lt h)

/-- C8: the two-stage matcher never returns two matches whose image-A
keypoints lie closer than `min_kp_distance * min(heightA, widthA)`: whatever
the external capabilities return, any two distinct matches of a successful
result are at least that far apart (in the metric `eNorm`, assumed
symmetric, standing for the Euclidean pixel-space distance). -/
theorem C8_doubleorb_spatial_diversity
    (max_displacement min_kp_distance : ℚ) (initial : MatchResult)
    (findHomography : List (Point × Point) → Option (Point → Point))
    (kp1 kp2 : List Point) (hamming : Nat → Nat → ℚ)
    (eNorm : Point → Point → ℚ) (h1 w1 h2 w2 : ℚ)
    (hsym : ∀ p q, eNorm p q = eNorm q p) (r : MatchResult)
    (hr : DoubleORBMatcher.matchOp max_displacement min_kp_distance initial
      findHomography kp1 kp2 hamming eNorm h1 w1 h2 w2 = .ok r) :
    r.dmatches.Pairwise (fun m m' =>
      min_kp_distance * min h1 w1 ≤
        eNorm (kp1.getD m.queryIdx ⟨0, 0⟩) (kp1.getD m'.queryIdx ⟨0, 0⟩)) := by
  unfold DoubleORBMatcher.matchOp at hr
  by_cases h4 : initial.dmatches.length < 4
  · rw [if_pos h4] at hr
    exact Except.noConfusion hr
  · rw [if_neg h4] at hr
    cases hH : findHomography initial.srcDst with
    | none => rw [hH] at hr; exact Except.noConfusion hr
    | some H =>
        rw [hH] at hr
        injection hr with hr
        subst hr
        exact nms_result_pairwise eNorm kp1 (min_kp_distance * min h1 w1) hsym _

/-- Witness for `C8_doubleorb_spatial_diversity`: a concrete successful run
(four coarse matches, a homography supplied by the estimator, the symmetric
squared-Euclidean metric as the distance oracle) to which the theorem
applies. -/
theorem C8_doubleorb_spatial_diversity_witness :
    DoubleORBMatcher.matchOp 0.01 0.15
      ⟨[⟨0, 0, 0⟩, ⟨0, 0, 0⟩, ⟨0, 0, 0⟩, ⟨0, 0, 0⟩], [⟨0, 0⟩], [⟨0, 0⟩]⟩
      (fun _ => some id) [] [] (fun _ _ => 0)
      (fun p q => (p.x - q.x) ^ 2 + (p.y - q.y) ^ 2) 1 1 1 1 =
      .ok ⟨[], [], []⟩ ∧
    (MatchResult.mk [] [] []).dmatches.Pairwise
      (fun m m' => (0.15 : ℚ) * min 1 1 ≤
        (fun p q : Point => (p.x - q.x) ^ 2 + (p.y - q.y) ^ 2)
          (([] : List Point).getD m.queryIdx ⟨0, 0⟩)
          (([] : List Point).getD m'.queryIdx ⟨0, 0⟩)) := by
  constructor
  · rfl
  · exact C8_doubleorb_spatial_diversity 0.01 0.15
      ⟨[⟨0, 0, 0⟩, ⟨0, 0, 0⟩, ⟨0, 0, 0⟩, ⟨0, 0, 0⟩], [⟨0, 0⟩], [⟨0, 0⟩]⟩
      (fun _ => some id) [] [] (fun _ _ => 0)
      (fun p q => (p.x - q.x) ^ 2 + (p.y - q.y) ^ 2) 1 1 1 1
      (fun p q => by
        show (p.x - q.x) ^ 2 + (p.y - q.y) ^ 2 = (q.x - p.x) ^ 2 + (q.y - p.y) ^ 2
        ring)
      ⟨[], [], []⟩ rfl
